/-
Verification of the SAFE Network node-stack fragments: the quorum merge
primitive (GetGroupKeyResponse::merge), the multi-algorithm key layer
(PublicKey::verify, XorName::from), and the membership message handler
(handle_membership_votes, handle_membership_anti_entropy).

Shallow embedding notes.
* DhtId and PublicSignKey live in the repository's `types` module, which is
  not among the provided sources.  Modelled from the spec: keys compare by
  their canonical serialized bytes, so both are coded as Nat (the code of the
  serialized form); `merge` only uses equality on them.  GROUP_SIZE is a
  positive constant of the missing `types` module and is passed here as an
  explicit `groupSize` parameter.
* Rust's `sort_by` is a stable sort.  A stable sort by a fixed comparator has
  a unique result (elements ordered by comparator, ties in original order),
  so the insertion sort `sortDesc` below, which inserts each element after
  all earlier elements whose count is not smaller, computes exactly the list
  produced by `frequency_count.sort_by(|a, b| b.1.cmp(&a.1))`.
* The two `assert!` / `assert_eq!` failure modes of `merge` are materialized
  as the `panicCountBound` / `panicGroupLen` outcomes.
-/
import Mathlib

set_option autoImplicit false

namespace SnVerify

namespace GroupKey

/-- A `(DhtId, PublicSignKey)` entry of `public_sign_keys`. -/
abbrev KeyPair := Nat × Nat

/-- Embedding of `GetGroupKeyResponse { target_id, public_sign_keys }`. -/
structure GetGroupKeyResponse where
  target_id : Nat
  public_sign_keys : List KeyPair
deriving DecidableEq

/-- One step of the frequency count in `merge`: find the first entry whose
pair equals `p` and increment it, otherwise push `(p, 1)` at the end. -/
def bumpCount : List (KeyPair × Nat) → KeyPair → List (KeyPair × Nat)
  | [], p => [(p, 1)]
  | (q, c) :: rest, p =>
      if q = p then (q, c + 1) :: rest else (q, c) :: bumpCount rest p

/-- Count every pair of `keys` into the accumulator `fc`, in order. -/
def countKeys (fc : List (KeyPair × Nat)) (keys : List KeyPair) :
    List (KeyPair × Nat) :=
  keys.foldl bumpCount fc

/-- The loop over the peer responses: before counting a response, its
`target_id` is compared with the self response's; a mismatch aborts the
whole merge with `None`. -/
def countOthers (selfTarget : Nat) (fc : List (KeyPair × Nat)) :
    List GetGroupKeyResponse → Option (List (KeyPair × Nat))
  | [] => some fc
  | other :: rest =>
      if other.target_id ≠ selfTarget then none
      else countOthers selfTarget (countKeys fc other.public_sign_keys) rest

/-- Stable insertion of one counted pair into a descending-by-count list:
`x` jumps only over entries with a strictly smaller count, so entries with
equal counts keep their original relative order. -/
def insertDesc (x : KeyPair × Nat) : List (KeyPair × Nat) → List (KeyPair × Nat)
  | [] => [x]
  | y :: rest => if y.2 < x.2 then x :: y :: rest else y :: insertDesc x rest

/-- Stable sort from highest count to lowest, the result of
`frequency_count.sort_by(|a, b| b.1.cmp(&a.1))`. -/
def sortDesc (l : List (KeyPair × Nat)) : List (KeyPair × Nat) :=
  l.foldl (fun acc x => insertDesc x acc) []

/-- Outcome of `merge`: `mismatch` is the `return None`, the two `panic`
outcomes are the `assert!(count <= GROUP_SIZE)` and the final
`assert_eq!(len, GROUP_SIZE)`, and `ok` is `Some(response)`. -/
inductive MergeResult where
  | mismatch
  | panicCountBound
  | panicGroupLen
  | ok (response : GetGroupKeyResponse)
deriving DecidableEq

/-- The selection loop of `merge`: push pairs while the merged group is
shorter than `groupSize`, checking `assert!(count <= GROUP_SIZE)` on each
pushed pair, and break once the group is full. -/
def takeGroup (groupSize : Nat) :
    List (KeyPair × Nat) → List KeyPair → Option (List KeyPair)
  | [], acc => some acc
  | (p, c) :: rest, acc =>
      if acc.length < groupSize then
        if c ≤ groupSize then takeGroup groupSize rest (acc ++ [p]) else none
      else some acc

/-- Embedding of `GetGroupKeyResponse::merge`. -/
def merge (groupSize : Nat) (self : GetGroupKeyResponse)
    (others : List GetGroupKeyResponse) : MergeResult :=
  match countOthers self.target_id (countKeys [] self.public_sign_keys) others with
  | none => MergeResult.mismatch
  | some fc =>
      match takeGroup groupSize (sortDesc fc) [] with
      | none => MergeResult.panicCountBound
      | some merged =>
          if merged.length = groupSize then
            MergeResult.ok ⟨self.target_id, merged⟩
          else MergeResult.panicGroupLen

/-- Number of occurrences of the pair `p` in one key list. -/
def occCount (p : KeyPair) : List KeyPair → Nat
  | [] => 0
  | k :: rest => (if k = p then 1 else 0) + occCount p rest

/-- Number of occurrences of the pair `p` across a list of responses. -/
def occTotalOthers (p : KeyPair) : List GetGroupKeyResponse → Nat
  | [] => 0
  | o :: rest => occCount p o.public_sign_keys + occTotalOthers p rest

/-- Total number of occurrences of the pair `p` across the self response and
all peer responses. -/
def totalCount (p : KeyPair) (self : GetGroupKeyResponse)
    (others : List GetGroupKeyResponse) : Nat :=
  occCount p self.public_sign_keys + occTotalOthers p others

/-- List of all pairs carried by the self response and the peer responses,
in processing order. -/
def allPairs (self : GetGroupKeyResponse)
    (others : List GetGroupKeyResponse) : List KeyPair :=
  self.public_sign_keys ++ (others.map (fun o => o.public_sign_keys)).flatten

/-- Number of distinct pairs across all responses. -/
def distinctPairCount (self : GetGroupKeyResponse)
    (others : List GetGroupKeyResponse) : Nat :=
  (allPairs self others).dedup.length

/-- The pair's natural order (derived from the serialized key), as the spec
words it: lexicographic on the serialized forms. -/
def pairLt (a b : KeyPair) : Bool :=
  a.1 < b.1 || (a.1 = b.1 && a.2 < b.2)

/-- Ordering the spec claims for the merged list: each consecutive pair is
descending by total occurrence count, with ties broken by the pair's natural
order. -/
def specOrdered (self : GetGroupKeyResponse)
    (others : List GetGroupKeyResponse) : List KeyPair → Bool
  | [] => true
  | [_] => true
  | a :: b :: rest =>
      (totalCount b self others < totalCount a self others ||
        (totalCount a self others = totalCount b self others && pairLt a b))
      && specOrdered self others (b :: rest)

/-- First count of the pair `p` in a frequency list (0 when absent); this is
what `iter_mut().find(...)` addresses. -/
def lookupCount : List (KeyPair × Nat) → KeyPair → Nat
  | [], _ => 0
  | (q, c) :: rest, p => if q = p then c else lookupCount rest p

end GroupKey

namespace Keys

/-- Embedding of the tagged union `PublicKey`: each variant carries the bytes
of the underlying library key (32 bytes for Ed25519, 48 for BLS and for a
BLS share). -/
inductive PublicKey where
  | ed25519 (bytes : List Nat)
  | bls (bytes : List Nat)
  | blsShare (bytes : List Nat)
deriving DecidableEq

/-- Well-formedness of the byte payloads: `ed25519_dalek` keys serialize to
32 bytes, `bls` keys and key shares to `PK_SIZE = 48` bytes. -/
def PublicKey.WF : PublicKey → Prop
  | .ed25519 bytes => bytes.length = 32
  | .bls bytes => bytes.length = 48
  | .blsShare bytes => bytes.length = 48

/-- Embedding of `PublicKey::to_bytes`. -/
def PublicKey.to_bytes : PublicKey → List Nat
  | .ed25519 bytes => bytes
  | .bls bytes => bytes
  | .blsShare bytes => bytes

/-- Embedding of the tagged union `Signature`; the `BlsShare` variant is the
`SignatureShare { index, share }` wrapper whose `share` field is what
`verify` checks. -/
inductive Signature where
  | ed25519 (bytes : List Nat)
  | bls (bytes : List Nat)
  | blsShare (index : Nat) (share : List Nat)
deriving DecidableEq

/-- The algorithm-specific checks of the external crypto libraries
(`ed25519_dalek`, `bls`), taken as opaque parameters: key bytes, signature
bytes and message bytes in, verdict out. -/
structure CryptoVerify where
  edVerify : List Nat → List Nat → List Nat → Bool
  blsVerify : List Nat → List Nat → List Nat → Bool
  blsShareVerify : List Nat → List Nat → List Nat → Bool

/-- The two error outcomes of `PublicKey::verify`. -/
inductive VerifyError where
  | invalidSignature
  | signingKeyTypeMismatch
deriving DecidableEq

/-- The `match (self, signature)` of `PublicKey::verify`: `some is_valid` on
matching variants, `none` for the catch-all arm that early-returns
`SigningKeyTypeMismatch`. -/
def verifyIsValid (cv : CryptoVerify) (pk : PublicKey) (sig : Signature)
    (data : List Nat) : Option Bool :=
  match pk, sig with
  | .ed25519 k, .ed25519 s => some (cv.edVerify k data s)
  | .bls k, .bls s => some (cv.blsVerify k s data)
  | .blsShare k, .blsShare _ share => some (cv.blsShareVerify k share data)
  | _, _ => none

/-- Embedding of `PublicKey::verify`. -/
def verify (cv : CryptoVerify) (pk : PublicKey) (sig : Signature)
    (data : List Nat) : Except VerifyError Unit :=
  match verifyIsValid cv pk sig data with
  | none => Except.error VerifyError.signingKeyTypeMismatch
  | some true => Except.ok ()
  | some false => Except.error VerifyError.invalidSignature

/-- Whether the key variant and the signature variant agree. -/
def variantsMatch : PublicKey → Signature → Bool
  | .ed25519 _, .ed25519 _ => true
  | .bls _, .bls _ => true
  | .blsShare _, .blsShare _ _ => true
  | _, _ => false

/-- The algorithm-specific check of the matching variant (false when the
variants do not match). -/
def algoCheck (cv : CryptoVerify) : PublicKey → Signature → List Nat → Bool
  | .ed25519 k, .ed25519 s, data => cv.edVerify k data s
  | .bls k, .bls s, data => cv.blsVerify k s data
  | .blsShare k, .blsShare _ share, data => cv.blsShareVerify k share data
  | _, _, _ => false

/-- Embedding of `<[u8; N]>::clone_from_slice`: every position of `dest` is
overwritten with the corresponding element of `src` (the Rust call panics
unless the lengths agree, in which case the copy is total). -/
def cloneFromSlice (dest src : List Nat) : List Nat :=
  (List.range dest.length).map (fun i => src.getD i (dest.getD i 0))

/-- Embedding of `From<PublicKey> for XorName`: an Ed25519 key gives its 32
raw bytes; a BLS key or share starts from a random name (`randName`) and
clones the leading `XOR_NAME_LEN = 32` bytes of the encoding over it. -/
def xorNameFromPublicKey (randName : List Nat) (pk : PublicKey) : List Nat :=
  match pk with
  | .ed25519 bytes => bytes
  | .bls bytes => cloneFromSlice randName (bytes.take 32)
  | .blsShare bytes => cloneFromSlice randName (bytes.take 32)

/-- What the spec says the derived name is: the Ed25519 bytes directly, or
the leading 32 bytes of the canonical BLS encoding. -/
def xorNameSpec : PublicKey → List Nat
  | .ed25519 bytes => bytes
  | .bls bytes => bytes.take 32
  | .blsShare bytes => bytes.take 32

/-- Concrete stand-in for the external crypto checks, used to instantiate
the `verify` theorem: each algorithm accepts exactly one signature byte
string. -/
def cvTest : CryptoVerify :=
  ⟨fun _ _ s => s == [1], fun _ s _ => s == [2], fun _ s _ => s == [3]⟩

end Keys

namespace Membership

/-
Embedding of the membership message handler of
`sn_node/src/node/core/messaging/handling/membership.rs`.  The handler is
generic glue: the engine (`sn_consensus::Membership`) is an opaque state
machine, modelled as a state type `σ` together with the record of operations
`EngineOps` the handler calls; votes `V`, node states `N`, peers `P`, BLS
public keys `K`, BLS signatures `S`, section names `X` and the section
Prefix type `Pfx` are opaque type parameters.  The `await`ed lock
acquisitions are modelled by sequential state passing: the per-vote
write-lock acquisition means each iteration works on the engine state left
by the previous one, which is exactly the data flow embedded here.
-/

/-- Embedding of `KeyedSig { public_key, signature }`. -/
structure KeyedSig (K S : Type) where
  public_key : K
  signature : S
deriving DecidableEq

/-- Embedding of `SectionAuth { value, sig }`. -/
structure SectionAuth (N K S : Type) where
  value : N
  sig : KeyedSig K S
deriving DecidableEq

/-- The two system messages the handler builds. -/
inductive SystemMsg (V : Type) where
  | membershipVotes (votes : List V)
  | membershipAE (gen : Nat)
deriving DecidableEq

/-- The commands the handler emits. -/
inductive Cmd (V N P K S X : Type) where
  | sendMsgToOurElders (msg : SystemMsg V)
  | sendDirectMsgToNodes (recipients : List P) (msg : SystemMsg V)
      (sectionName : X) (dstSectionPk : K)
  | sendDirectMsg (recipient : P) (msg : SystemMsg V) (sectionPk : K)
  | handleNodeLeft (auth : SectionAuth N K S)
  | handleNewNodeOnline (auth : SectionAuth N K S)
deriving DecidableEq

/-- Embedding of `sn_consensus::VoteResponse`. -/
inductive VoteResponse (V : Type) where
  | broadcast (vote : V)
  | waitingForMoreVotes
deriving DecidableEq

/-- Engine errors as the handler distinguishes them: `RequestAntiEntropy`
versus every other error (opaque). -/
inductive MembershipError where
  | requestAntiEntropy
  | other (code : Nat)
deriving DecidableEq

/-- Embedding of `sn_consensus::Decision`: its `proposals` map iterated as a
list of `(NodeState, Signature)` entries. -/
structure Decision (N S : Type) where
  proposals : List (N × S)
deriving DecidableEq

/-- The `BlsPublicKeySet` as the handler uses it: only `public_key()` is
called. -/
structure BlsPublicKeySet (K : Type) where
  public_key : K
deriving DecidableEq

/-- The engine operations called by the handler.  `handle_signed_vote`
mutates the engine, so it returns the new engine state next to its result;
the read-only operations are functions of the current state. -/
structure EngineOps (σ V N K S Pfx : Type) where
  handle_signed_vote : σ → V → Pfx → σ × Except MembershipError (VoteResponse V)
  generation : σ → Nat
  most_recent_decision : σ → Option (Decision N S)
  is_leaving_section : σ → N → Pfx → Bool
  voters_public_key_set : σ → BlsPublicKeySet K
  anti_entropy : σ → Nat → Except MembershipError (List V)

/-- The node state the handler reads: the section Prefix and its name, the
SAP's section key, the current section key, and the engine behind the lock
(`None` while no membership instance exists). -/
structure NodeCtx (σ K X Pfx : Type) where
  pfx : Pfx
  pfx_name : X
  sap_section_key : K
  section_key : K
  membership : Option σ

variable {σ V N P K S X Pfx : Type}

/-- The decision block run after every accepted vote: read
`most_recent_decision()`; if present, emit one `HandleNodeLeft` or
`HandleNewNodeOnline` per `(state, signature)` entry of `proposals`,
carrying `KeyedSig { public_key: voters_public_key_set().public_key(),
signature }`. -/
def decisionCmds (ops : EngineOps σ V N K S Pfx) (m : σ) (pfx : Pfx) :
    List (Cmd V N P K S X) :=
  match ops.most_recent_decision m with
  | none => []
  | some decision =>
      decision.proposals.map (fun entry =>
        let sig : KeyedSig K S :=
          ⟨(ops.voters_public_key_set m).public_key, entry.2⟩
        if ops.is_leaving_section m entry.1 pfx then
          Cmd.handleNodeLeft ⟨entry.1, sig⟩
        else
          Cmd.handleNewNodeOnline ⟨entry.1, sig⟩)

/-- The `for signed_vote in signed_votes` loop of `handle_membership_votes`,
with the accumulated command vector `cmds` and the engine state (absent when
there is no membership instance, in which case the loop only logs and keeps
iterating).  `Broadcast` pushes an elder broadcast, `WaitingForMoreVotes`
pushes nothing, and both then run the decision block on the post-vote engine
state; `RequestAntiEntropy` pushes one direct AE request carrying the
engine's own current generation and returns at once; any other error breaks
the loop, dropping this and all later votes of the batch. -/
def handleVotesLoop (ops : EngineOps σ V N K S Pfx) (pfx : Pfx)
    (sectionName : X) (dstSectionPk : K) (peer : P) :
    Option σ → List V → List (Cmd V N P K S X) →
      Option σ × List (Cmd V N P K S X)
  | mem, [], cmds => (mem, cmds)
  | none, _ :: rest, cmds =>
      handleVotesLoop ops pfx sectionName dstSectionPk peer none rest cmds
  | some m, v :: rest, cmds =>
      match ops.handle_signed_vote m v pfx with
      | (m', Except.ok (VoteResponse.broadcast rv)) =>
          handleVotesLoop ops pfx sectionName dstSectionPk peer (some m') rest
            ((cmds ++ [Cmd.sendMsgToOurElders
                (SystemMsg.membershipVotes [rv])])
              ++ decisionCmds ops m' pfx)
      | (m', Except.ok VoteResponse.waitingForMoreVotes) =>
          handleVotesLoop ops pfx sectionName dstSectionPk peer (some m') rest
            (cmds ++ decisionCmds ops m' pfx)
      | (m', Except.error MembershipError.requestAntiEntropy) =>
          (some m', cmds ++ [Cmd.sendDirectMsgToNodes [peer]
            (SystemMsg.membershipAE (ops.generation m')) sectionName
            dstSectionPk])
      | (m', Except.error (MembershipError.other _)) =>
          (some m', cmds)

/-- Embedding of `handle_membership_votes`: run the vote loop from the
node's current state with an empty command vector; the pair returned is the
final engine state and the `Ok(cmds)` result. -/
def handle_membership_votes (ops : EngineOps σ V N K S Pfx)
    (ctx : NodeCtx σ K X Pfx) (peer : P) (signed_votes : List V) :
    Option σ × List (Cmd V N P K S X) :=
  handleVotesLoop ops ctx.pfx ctx.pfx_name ctx.sap_section_key peer
    ctx.membership signed_votes []

/-- Embedding of `handle_membership_anti_entropy`: with an engine present,
`anti_entropy(gen)` feeds one `SendDirectMsg(peer, MembershipVotes(...),
section_key)` on success and nothing on error; without an engine the result
is empty. -/
def handle_membership_anti_entropy (ops : EngineOps σ V N K S Pfx)
    (ctx : NodeCtx σ K X Pfx) (peer : P) (gen : Nat) :
    List (Cmd V N P K S X) :=
  match ctx.membership with
  | some m =>
      match ops.anti_entropy m gen with
      | Except.ok catchup_votes =>
          [Cmd.sendDirectMsg peer (SystemMsg.membershipVotes catchup_votes)
            ctx.section_key]
      | Except.error _ => []
  | none => []

/-- A run of the vote loop in which the engine accepts every vote of the
list (each `handle_signed_vote` call returns `Ok`), threading the engine
state from `m` to `m₁`. -/
inductive Accepts (ops : EngineOps σ V N K S Pfx) (pfx : Pfx) :
    σ → List V → σ → Prop where
  | nil (m : σ) : Accepts ops pfx m [] m
  | cons {m m' m₁ : σ} {v : V} {vs : List V} (r : VoteResponse V)
      (h : ops.handle_signed_vote m v pfx = (m', Except.ok r))
      (ht : Accepts ops pfx m' vs m₁) : Accepts ops pfx m (v :: vs) m₁

/-- The commands the loop would add for one accepted vote with result `r`
and post-vote engine state `m'`. -/
def acceptedVoteCmds (ops : EngineOps σ V N K S Pfx) (pfx : Pfx) (m' : σ)
    (r : VoteResponse V) : List (Cmd V N P K S X) :=
  (match r with
    | VoteResponse.broadcast rv =>
        [Cmd.sendMsgToOurElders (SystemMsg.membershipVotes [rv])]
    | VoteResponse.waitingForMoreVotes => [])
  ++ decisionCmds ops m' pfx

/-- Accumulator-free form of the vote loop: the list of commands the loop
adds from a given engine state onward, with the final engine state. -/
def votesCmdsSpec (ops : EngineOps σ V N K S Pfx) (pfx : Pfx)
    (sectionName : X) (dstSectionPk : K) (peer : P) :
    Option σ → List V → List (Cmd V N P K S X) × Option σ
  | mem, [] => ([], mem)
  | none, _ :: rest =>
      votesCmdsSpec ops pfx sectionName dstSectionPk peer none rest
  | some m, v :: rest =>
      match ops.handle_signed_vote m v pfx with
      | (m', Except.ok r) =>
          let next :=
            votesCmdsSpec ops pfx sectionName dstSectionPk peer (some m') rest
          (acceptedVoteCmds ops pfx m' r ++ next.1, next.2)
      | (m', Except.error MembershipError.requestAntiEntropy) =>
          ([Cmd.sendDirectMsgToNodes [peer]
              (SystemMsg.membershipAE (ops.generation m')) sectionName
              dstSectionPk], some m')
      | (m', Except.error (MembershipError.other _)) => ([], some m')

/-- Concrete engine over `σ = Nat` used to exercise the handler theorems:
vote 99 raises `RequestAntiEntropy`, vote 98 raises another engine error,
vote 50 is accepted with a `Broadcast`, and every other vote is accepted
with `WaitingForMoreVotes`; accepted votes advance the state, and state 1
exposes a decision with one leaving and one staying node. -/
def natOps : EngineOps Nat Nat Nat Nat Nat Nat :=
  ⟨fun m v _ =>
      if v = 99 then (m, Except.error MembershipError.requestAntiEntropy)
      else if v = 98 then (m, Except.error (MembershipError.other 0))
      else if v = 50 then (m + 1, Except.ok (VoteResponse.broadcast v))
      else (m + 1, Except.ok VoteResponse.waitingForMoreVotes),
    fun m => m + 5,
    fun m => if m = 1 then some ⟨[(7, 70), (8, 80)]⟩ else none,
    fun _ n _ => n = 7,
    fun _ => ⟨21⟩,
    fun m g =>
      if g + 1 ≤ m then Except.ok [g + 1, g + 2]
      else if g = 77 then Except.error (MembershipError.other 1)
      else Except.ok []⟩

/-- Concrete node context with an engine at state 0. -/
def natCtx : NodeCtx Nat Nat Nat Nat := ⟨0, 11, 12, 13, some 0⟩

/-- Concrete node context without a membership instance. -/
def natCtxNone : NodeCtx Nat Nat Nat Nat := ⟨0, 11, 12, 13, none⟩

/-- Concrete node context with an engine at state 5. -/
def natCtx5 : NodeCtx Nat Nat Nat Nat := ⟨0, 11, 12, 13, some 5⟩

end Membership

end SnVerify


namespace SnVerify.Membership

variable {σ V N P K S X Pfx : Type}

/-- The accumulator of the vote loop is append-only: running the loop with
accumulator `cmds` yields `cmds` followed by the commands computed by the
accumulator-free form. -/
theorem handleVotesLoop_eq_spec (ops : EngineOps σ V N K S Pfx) (pfx : Pfx)
    (sectionName : X) (dstSectionPk : K) (peer : P) (vs : List V) :
    ∀ (mem : Option σ) (cmds : List (Cmd V N P K S X)),
      handleVotesLoop ops pfx sectionName dstSectionPk peer mem vs cmds =
        ((votesCmdsSpec ops pfx sectionName dstSectionPk peer mem vs).2,
          cmds ++ (votesCmdsSpec ops pfx sectionName dstSectionPk peer mem vs).1) := by
  induction vs with
  | nil =>
      intro mem cmds
      cases mem <;> simp [handleVotesLoop, votesCmdsSpec]
  | cons v rest ih =>
      intro mem cmds
      cases mem with
      | none =>
          simpa [handleVotesLoop, votesCmdsSpec] using ih none cmds
      | some m =>
          simp only [handleVotesLoop, votesCmdsSpec]
          cases h : ops.handle_signed_vote m v pfx with
          | mk m' res =>
            cases res with
            | ok r =>
                cases r with
                | broadcast rv => simp [ih, acceptedVoteCmds]
                | waitingForMoreVotes => simp [ih, acceptedVoteCmds]
            | error e =>
                cases e <;> simp

/-- Splitting the accumulator-free loop at a point reached through a run of
accepted votes. -/
theorem votesCmdsSpec_accepts_append (ops : EngineOps σ V N K S Pfx)
    (pfx : Pfx) (sectionName : X) (dstSectionPk : K) (peer : P)
    {m m₁ : σ} {vs : List V} (ws : List V)
    (hacc : Accepts ops pfx m vs m₁) :
    (votesCmdsSpec ops pfx sectionName dstSectionPk peer (some m)
        (vs ++ ws) : List (Cmd V N P K S X) × Option σ).1 =
      (votesCmdsSpec ops pfx sectionName dstSectionPk peer (some m) vs).1 ++
        (votesCmdsSpec ops pfx sectionName dstSectionPk peer (some m₁) ws).1 := by
  induction hacc with
  | nil m => simp [votesCmdsSpec]
  | cons r h ht ih =>
      simp only [List.cons_append, votesCmdsSpec, h, List.append_eq]
      rw [ih]
      simp

/-- C1: for every vote of a batch that `handle_signed_vote` accepts
(`Broadcast` or `WaitingForMoreVotes`), if `most_recent_decision()` then
returns `Some(decision)`, `handle_membership_votes` emits, for every
`(state, signature)` entry of `decision.proposals`, exactly one command:
`HandleNodeLeft(SectionAuth { value: state, sig })` when
`is_leaving_section(state, pfx)` holds and otherwise
`HandleNewNodeOnline(SectionAuth { value: state, sig })`, where `sig` is a
`KeyedSig` whose `public_key` is `voters_public_key_set().public_key()` and
whose `signature` is the entry's signature.  The accepted vote is the one
following the accepted run `vs`; the emitted commands sit between the
optional broadcast of the vote response and the commands of the rest of the
batch. -/
theorem claim_c1_decision_routing (ops : EngineOps σ V N K S Pfx)
    (ctx : NodeCtx σ K X Pfx) (peer : P) (m m₁ m' : σ) (vs ws : List V)
    (v : V) (r : VoteResponse V) (d : Decision N S)
    (hmem : ctx.membership = some m)
    (hacc : Accepts ops ctx.pfx m vs m₁)
    (hv : ops.handle_signed_vote m₁ v ctx.pfx = (m', Except.ok r))
    (hd : ops.most_recent_decision m' = some d) :
    (handle_membership_votes ops ctx peer (vs ++ v :: ws) :
        Option σ × List (Cmd V N P K S X)).2 =
      (handle_membership_votes ops ctx peer vs).2
        ++ (match r with
            | VoteResponse.broadcast rv =>
                [Cmd.sendMsgToOurElders (SystemMsg.membershipVotes [rv])]
            | VoteResponse.waitingForMoreVotes => [])
        ++ d.proposals.map (fun entry =>
            if ops.is_leaving_section m' entry.1 ctx.pfx then
              Cmd.handleNodeLeft
                ⟨entry.1, ⟨(ops.voters_public_key_set m').public_key, entry.2⟩⟩
            else
              Cmd.handleNewNodeOnline
                ⟨entry.1, ⟨(ops.voters_public_key_set m').public_key, entry.2⟩⟩)
        ++ (votesCmdsSpec ops ctx.pfx ctx.pfx_name ctx.sap_section_key peer
              (some m') ws).1 := by
  unfold handle_membership_votes
  rw [hmem, handleVotesLoop_eq_spec, handleVotesLoop_eq_spec]
  simp only [List.nil_append]
  rw [votesCmdsSpec_accepts_append ops ctx.pfx ctx.pfx_name ctx.sap_section_key
    peer (v :: ws) hacc]
  simp only [votesCmdsSpec, hv]
  simp [acceptedVoteCmds, decisionCmds, hd, List.append_assoc]

/-- C1 witness: engine `natOps` from state 0 accepts vote 5 with
`WaitingForMoreVotes`, reaching state 1 whose decision has a leaving node 7
and a staying node 8; the handler emits exactly the two routed commands with
the voters' public key 21 and the entry signatures 70 and 80. -/
theorem claim_c1_witness :
    (handle_membership_votes natOps natCtx 3 [5] :
        Option Nat × List (Cmd Nat Nat Nat Nat Nat Nat)).2 =
      [Cmd.handleNodeLeft ⟨7, ⟨21, 70⟩⟩,
        Cmd.handleNewNodeOnline ⟨8, ⟨21, 80⟩⟩] := by
  have h := claim_c1_decision_routing natOps natCtx 3 0 0 1 [] [] 5
    VoteResponse.waitingForMoreVotes ⟨[(7, 70), (8, 80)]⟩ rfl (Accepts.nil 0)
    rfl rfl
  simpa [natOps, natCtx, votesCmdsSpec, handle_membership_votes,
    handleVotesLoop] using h

/-- C2: if `handle_signed_vote` returns `Err(RequestAntiEntropy)` on a vote
of the batch (here: the vote after the accepted run `vs`), the handler
appends exactly one `SendDirectMsgToNodes` to `[peer]` carrying
`MembershipAE` of the engine's own current generation and returns the
commands accumulated so far plus that AE command; the remaining votes `ws`
of the batch are not processed (the result does not depend on them). -/
theorem claim_c2_ae_stops_batch (ops : EngineOps σ V N K S Pfx)
    (ctx : NodeCtx σ K X Pfx) (peer : P) (m m₁ m' : σ) (vs ws : List V)
    (v : V)
    (hmem : ctx.membership = some m)
    (hacc : Accepts ops ctx.pfx m vs m₁)
    (hv : ops.handle_signed_vote m₁ v ctx.pfx =
      (m', Except.error MembershipError.requestAntiEntropy)) :
    (handle_membership_votes ops ctx peer (vs ++ v :: ws) :
        Option σ × List (Cmd V N P K S X)).2 =
      (handle_membership_votes ops ctx peer vs).2
        ++ [Cmd.sendDirectMsgToNodes [peer]
              (SystemMsg.membershipAE (ops.generation m')) ctx.pfx_name
              ctx.sap_section_key] := by
  unfold handle_membership_votes
  rw [hmem, handleVotesLoop_eq_spec, handleVotesLoop_eq_spec]
  simp only [List.nil_append]
  rw [votesCmdsSpec_accepts_append ops ctx.pfx ctx.pfx_name ctx.sap_section_key
    peer (v :: ws) hacc]
  simp only [votesCmdsSpec, hv]

/-- C2 witness: the engine at generation 0 + 5 rejects vote 99 with
`RequestAntiEntropy`; the batch `[99, 5]` produces exactly the one AE
request `MembershipAE(5)` to `[3]` and the trailing vote 5 is not
processed. -/
theorem claim_c2_witness :
    (handle_membership_votes natOps natCtx 3 [99, 5] :
        Option Nat × List (Cmd Nat Nat Nat Nat Nat Nat)).2 =
      [Cmd.sendDirectMsgToNodes [3] (SystemMsg.membershipAE 5) 11 12] := by
  have h := claim_c2_ae_stops_batch natOps natCtx 3 0 0 0 [] [5] 99 rfl
    (Accepts.nil 0) rfl
  exact h.trans (by decide)

/-- C8: `handle_membership_anti_entropy(peer, gen)` calls
`anti_entropy(gen)` on the engine behind the (read-locked) state: on success
with a non-empty vote list it emits exactly one `SendDirectMsg(peer,
MembershipVotes(list), section_key)`, and on an engine error or an absent
engine it returns an empty command list. -/
theorem claim_c8_anti_entropy (ops : EngineOps σ V N K S Pfx)
    (ctx : NodeCtx σ K X Pfx) (peer : P) (gen : Nat) :
    (∀ (m : σ) (l : List V), ctx.membership = some m →
        ops.anti_entropy m gen = Except.ok l → l ≠ [] →
        handle_membership_anti_entropy ops ctx peer gen =
          ([Cmd.sendDirectMsg peer (SystemMsg.membershipVotes l)
              ctx.section_key] : List (Cmd V N P K S X)))
    ∧ (∀ (m : σ) (e : MembershipError), ctx.membership = some m →
        ops.anti_entropy m gen = Except.error e →
        handle_membership_anti_entropy ops ctx peer gen =
          ([] : List (Cmd V N P K S X)))
    ∧ (ctx.membership = none →
        handle_membership_anti_entropy ops ctx peer gen =
          ([] : List (Cmd V N P K S X))) := by
  refine ⟨?_, ?_, ?_⟩
  · intro m l hm hae _
    simp [handle_membership_anti_entropy, hm, hae]
  · intro m e hm hae
    simp [handle_membership_anti_entropy, hm, hae]
  · intro hm
    simp [handle_membership_anti_entropy, hm]

/-- C8 witness: the engine at state 5 answers generation 0 with the catch-up
votes `[1, 2]`, which become one `SendDirectMsg` to peer 3 under section key
13; generation 77 raises an engine error and an absent engine yields no
commands. -/
theorem claim_c8_witness :
    (handle_membership_anti_entropy natOps natCtx5 3 0 :
        List (Cmd Nat Nat Nat Nat Nat Nat)) =
      [Cmd.sendDirectMsg 3 (SystemMsg.membershipVotes [1, 2]) 13]
    ∧ (handle_membership_anti_entropy natOps natCtx5 3 77 :
        List (Cmd Nat Nat Nat Nat Nat Nat)) = []
    ∧ (handle_membership_anti_entropy natOps natCtxNone 3 0 :
        List (Cmd Nat Nat Nat Nat Nat Nat)) = [] :=
  ⟨(claim_c8_anti_entropy natOps natCtx5 3 0).1 5 [1, 2] rfl rfl
      (by decide),
    (claim_c8_anti_entropy natOps natCtx5 3 77).2.1 5
      (MembershipError.other 1) rfl rfl,
    (claim_c8_anti_entropy natOps natCtxNone 3 0).2.2 rfl⟩

end SnVerify.Membership

namespace SnVerify.Keys

/-- The fully-overwriting copy: when the source has the destination's
length, `clone_from_slice` replaces the destination entirely. -/
theorem cloneFromSlice_eq_src (dest src : List Nat)
    (h : src.length = dest.length) : cloneFromSlice dest src = src := by
  unfold cloneFromSlice
  apply List.ext_getElem
  · simp [h]
  · intro i h1 h2
    have hi : i < dest.length := by simpa using h1
    have hi2 : i < src.length := h ▸ hi
    simp only [List.getElem_map, List.getElem_range]
    exact List.getD_eq_getElem src _ hi2

/-- C6: `verify(pk, sig, m)` returns `Ok` iff the variants of `pk` and
`sig` match and the algorithm-specific check passes; when the variants
differ it returns `SigningKeyTypeMismatch` and never `InvalidSignature`;
when the variants match but the cryptographic check fails it returns
`InvalidSignature`. -/
theorem claim_c6_verify (cv : CryptoVerify) (pk : PublicKey)
    (sig : Signature) (data : List Nat) :
    (verify cv pk sig data = Except.ok () ↔
      variantsMatch pk sig = true ∧ algoCheck cv pk sig data = true)
    ∧ (variantsMatch pk sig = false →
        verify cv pk sig data = Except.error VerifyError.signingKeyTypeMismatch)
    ∧ (variantsMatch pk sig = true → algoCheck cv pk sig data = false →
        verify cv pk sig data = Except.error VerifyError.invalidSignature) := by
  cases pk with
  | ed25519 k =>
      cases sig with
      | ed25519 s =>
          cases h : cv.edVerify k data s <;>
            simp [verify, verifyIsValid, variantsMatch, algoCheck, h]
      | bls s => simp [verify, verifyIsValid, variantsMatch, algoCheck]
      | blsShare i s => simp [verify, verifyIsValid, variantsMatch, algoCheck]
  | bls k =>
      cases sig with
      | ed25519 s => simp [verify, verifyIsValid, variantsMatch, algoCheck]
      | bls s =>
          cases h : cv.blsVerify k s data <;>
            simp [verify, verifyIsValid, variantsMatch, algoCheck, h]
      | blsShare i s => simp [verify, verifyIsValid, variantsMatch, algoCheck]
  | blsShare k =>
      cases sig with
      | ed25519 s => simp [verify, verifyIsValid, variantsMatch, algoCheck]
      | bls s => simp [verify, verifyIsValid, variantsMatch, algoCheck]
      | blsShare i s =>
          cases h : cv.blsShareVerify k s data <;>
            simp [verify, verifyIsValid, variantsMatch, algoCheck, h]

/-- C6 witness: with the concrete checks of `cvTest`, a variant mismatch
gives `SigningKeyTypeMismatch`, a matching variant with a failing check
gives `InvalidSignature`, and a matching variant with a passing check gives
`Ok`. -/
theorem claim_c6_witness :
    verify cvTest (PublicKey.ed25519 [9]) (Signature.bls [2]) [4] =
      Except.error VerifyError.signingKeyTypeMismatch
    ∧ verify cvTest (PublicKey.ed25519 [9]) (Signature.ed25519 [5]) [4] =
      Except.error VerifyError.invalidSignature
    ∧ verify cvTest (PublicKey.bls [9]) (Signature.bls [2]) [4] =
      Except.ok () :=
  ⟨(claim_c6_verify cvTest (PublicKey.ed25519 [9]) (Signature.bls [2]) [4]).2.1
      rfl,
    (claim_c6_verify cvTest (PublicKey.ed25519 [9]) (Signature.ed25519 [5])
        [4]).2.2 rfl (by decide),
    (claim_c6_verify cvTest (PublicKey.bls [9]) (Signature.bls [2]) [4]).1.mpr
      ⟨rfl, by decide⟩⟩

/-- C9: for a well-formed key, `XorName::from(pk)` is independent of the
random name the BLS branch starts from, and equals the Ed25519 raw bytes or
the leading 32 bytes of the BLS encoding; hence equal keys always give the
same name. -/
theorem claim_c9_xorname (pk : PublicKey) (rand rand2 : List Nat)
    (hwf : pk.WF) (h1 : rand.length = 32) (h2 : rand2.length = 32) :
    xorNameFromPublicKey rand pk = xorNameSpec pk
    ∧ xorNameFromPublicKey rand pk = xorNameFromPublicKey rand2 pk := by
  have main : ∀ (r : List Nat), r.length = 32 →
      xorNameFromPublicKey r pk = xorNameSpec pk := by
    intro r hr
    cases pk with
    | ed25519 b => rfl
    | bls b =>
        have hb : b.length = 48 := hwf
        have hlen : (b.take 32).length = r.length := by
          simp [List.length_take, hb, hr]
        simp [xorNameFromPublicKey, xorNameSpec,
          cloneFromSlice_eq_src r (b.take 32) hlen]
    | blsShare b =>
        have hb : b.length = 48 := hwf
        have hlen : (b.take 32).length = r.length := by
          simp [List.length_take, hb, hr]
        simp [xorNameFromPublicKey, xorNameSpec,
          cloneFromSlice_eq_src r (b.take 32) hlen]
  exact ⟨main rand h1, (main rand h1).trans (main rand2 h2).symm⟩

/-- C9 witness: a BLS key of 48 bytes yields the leading 32 bytes of its
encoding whatever the 32-byte random name was, and an Ed25519 key yields
its raw bytes. -/
theorem claim_c9_witness :
    xorNameFromPublicKey (List.replicate 32 9)
        (PublicKey.bls (List.replicate 48 2)) = List.replicate 32 2
    ∧ xorNameFromPublicKey (List.replicate 32 9)
        (PublicKey.ed25519 (List.replicate 32 6)) = List.replicate 32 6 := by
  constructor
  · have h := claim_c9_xorname (PublicKey.bls (List.replicate 48 2))
      (List.replicate 32 9) (List.replicate 32 7) rfl rfl rfl
    exact h.1.trans (by decide)
  · have h := claim_c9_xorname (PublicKey.ed25519 (List.replicate 32 6))
      (List.replicate 32 9) (List.replicate 32 7) rfl rfl rfl
    exact h.1

end SnVerify.Keys

namespace SnVerify.GroupKey

/-- A mismatching peer response anywhere in the list makes the counting loop
abort with `none`. -/
theorem countOthers_none (t : Nat) :
    ∀ (others : List GetGroupKeyResponse) (fc : List (KeyPair × Nat)),
      (∃ o ∈ others, o.target_id ≠ t) → countOthers t fc others = none := by
  intro others
  induction others with
  | nil => intro fc h; simp at h
  | cons o rest ih =>
      intro fc h
      obtain ⟨w, hw, hne⟩ := h
      by_cases ho : o.target_id ≠ t
      · unfold countOthers
        rw [if_pos ho]
      · have hwr : w ∈ rest := by
          rcases List.mem_cons.mp hw with h1 | h1
          · push_neg at ho
            subst h1
            exact absurd ho hne
          · exact h1
        unfold countOthers
        rw [if_neg ho]
        exact ih _ ⟨w, hwr, hne⟩

/-- C5: if any peer response carries a `target_id` different from the self
response's, `merge` returns no result (`None`), whatever the key lists
carried by the responses. -/
theorem claim_c5_mismatched_target (gs : Nat) (s : GetGroupKeyResponse)
    (others : List GetGroupKeyResponse)
    (h : ∃ o ∈ others, o.target_id ≠ s.target_id) :
    merge gs s others = MergeResult.mismatch := by
  unfold merge
  rw [countOthers_none s.target_id others _ h]

/-- C5 witness: a single peer response aimed at target 1 mismatches the self
response aimed at target 0, even though the key lists agree. -/
theorem claim_c5_witness :
    merge 3 ⟨0, [(1, 1), (2, 2)]⟩ [⟨1, [(1, 1), (2, 2)]⟩] =
      MergeResult.mismatch :=
  claim_c5_mismatched_target 3 ⟨0, [(1, 1), (2, 2)]⟩ [⟨1, [(1, 1), (2, 2)]⟩]
    ⟨⟨1, [(1, 1), (2, 2)]⟩, by simp, by decide⟩

/-- Bumping the count of `q` changes the first count of `p` by one exactly
when `q = p`. -/
theorem lookupCount_bumpCount (q p : KeyPair) :
    ∀ (fc : List (KeyPair × Nat)),
      lookupCount (bumpCount fc q) p =
        lookupCount fc p + (if q = p then 1 else 0) := by
  intro fc
  induction fc with
  | nil =>
      by_cases h : q = p <;> simp [bumpCount, lookupCount, h]
  | cons e rest ih =>
      obtain ⟨r, c⟩ := e
      by_cases hrq : r = q
      · by_cases hqp : q = p
        · have hrp : r = p := hrq.trans hqp
          simp [bumpCount, lookupCount, hrq, hrp, hqp]
        · have hrp : ¬ r = p := fun h => hqp (hrq.symm.trans h)
          simp [bumpCount, lookupCount, hrq, hrp, hqp]
      · by_cases hrp : r = p
        · have hqp : ¬ q = p := fun h => hrq (hrp.trans h.symm)
          have hpq : ¬ p = q := fun h => hqp h.symm
          simp [bumpCount, lookupCount, hrq, hrp, hqp, hpq]
        · simp [bumpCount, lookupCount, hrq, hrp, ih]

/-- Counting a key list adds each pair's number of occurrences to its first
count. -/
theorem lookupCount_countKeys (p : KeyPair) :
    ∀ (ks : List KeyPair) (fc : List (KeyPair × Nat)),
      lookupCount (countKeys fc ks) p = lookupCount fc p + occCount p ks := by
  intro ks
  induction ks with
  | nil => intro fc; simp [countKeys, occCount]
  | cons k rest ih =>
      intro fc
      have hstep : countKeys fc (k :: rest) = countKeys (bumpCount fc k) rest := rfl
      rw [hstep, ih, lookupCount_bumpCount]
      simp [occCount]
      omega

/-- Counting all peer responses adds their occurrence totals to each pair's
first count. -/
theorem lookupCount_countOthers (t : Nat) (p : KeyPair) :
    ∀ (others : List GetGroupKeyResponse) (fc fc2 : List (KeyPair × Nat)),
      countOthers t fc others = some fc2 →
      lookupCount fc2 p = lookupCount fc p + occTotalOthers p others := by
  intro others
  induction others with
  | nil =>
      intro fc fc2 h
      simp [countOthers] at h
      subst h
      simp [occTotalOthers]
  | cons o rest ih =>
      intro fc fc2 h
      unfold countOthers at h
      by_cases ho : o.target_id ≠ t
      · rw [if_pos ho] at h
        exact absurd h (by simp)
      · rw [if_neg ho] at h
        rw [ih _ _ h, lookupCount_countKeys]
        simp [occTotalOthers]
        omega

/-- The first count of `p` is zero or the count of an entry of the list. -/
theorem lookupCount_mem (p : KeyPair) :
    ∀ (fc : List (KeyPair × Nat)),
      lookupCount fc p = 0 ∨ (p, lookupCount fc p) ∈ fc := by
  intro fc
  induction fc with
  | nil => left; rfl
  | cons e rest ih =>
      obtain ⟨r, c⟩ := e
      by_cases hrp : r = p
      · subst hrp
        right
        simp [lookupCount]
      · rcases ih with h0 | hmem
        · left; simpa [lookupCount, hrp] using h0
        · right
          simp [lookupCount, hrp]
          right
          exact hmem

/-- Stable insertion permutes to consing. -/
theorem insertDesc_perm (x : KeyPair × Nat) :
    ∀ (l : List (KeyPair × Nat)), List.Perm (insertDesc x l) (x :: l) := by
  intro l
  induction l with
  | nil => simp [insertDesc]
  | cons y rest ih =>
      by_cases h : y.2 < x.2
      · simp [insertDesc, h]
      · simp only [insertDesc, if_neg h]
        exact (ih.cons y).trans (List.Perm.swap x y rest)

/-- The insertion-sort fold permutes to appending. -/
theorem foldl_insertDesc_perm :
    ∀ (l acc : List (KeyPair × Nat)),
      List.Perm (l.foldl (fun a x => insertDesc x a) acc) (acc ++ l) := by
  intro l
  induction l with
  | nil => intro acc; simp
  | cons x rest ih =>
      intro acc
      have h1 := ih (insertDesc x acc)
      have h2 : List.Perm (insertDesc x acc ++ rest) ((x :: acc) ++ rest) :=
        (insertDesc_perm x acc).append_right rest
      have h3 : List.Perm ((x :: acc) ++ rest) (acc ++ x :: rest) :=
        List.perm_middle.symm
      exact (h1.trans h2).trans h3

/-- The stable sort is a permutation of its input. -/
theorem sortDesc_perm (l : List (KeyPair × Nat)) :
    List.Perm (sortDesc l) l := by
  simpa using foldl_insertDesc_perm l []

end SnVerify.GroupKey

namespace SnVerify.GroupKey

/-- Stable insertion preserves the descending-by-count ordering. -/
theorem insertDesc_sorted (x : KeyPair × Nat) :
    ∀ (l : List (KeyPair × Nat)),
      l.Sorted (fun a b => b.2 ≤ a.2) →
      (insertDesc x l).Sorted (fun a b => b.2 ≤ a.2) := by
  intro l
  induction l with
  | nil => intro _; simp [insertDesc]
  | cons y rest ih =>
      intro hs
      rw [List.sorted_cons] at hs
      obtain ⟨hy, hrest⟩ := hs
      by_cases h : y.2 < x.2
      · simp only [insertDesc, if_pos h]
        rw [List.sorted_cons]
        constructor
        · intro z hz
          rcases List.mem_cons.mp hz with h1 | h1
          · exact h1 ▸ Nat.le_of_lt h
          · exact Nat.le_trans (hy z h1) (Nat.le_of_lt h)
        · rw [List.sorted_cons]
          exact ⟨hy, hrest⟩
      · simp only [insertDesc, if_neg h]
        rw [List.sorted_cons]
        constructor
        · intro z hz
          have hz2 : z ∈ x :: rest := (insertDesc_perm x rest).mem_iff.mp hz
          rcases List.mem_cons.mp hz2 with h1 | h1
          · exact h1 ▸ Nat.le_of_not_lt h
          · exact hy z h1
        · exact ih hrest

/-- The insertion-sort fold of a sorted accumulator stays sorted. -/
theorem foldl_insertDesc_sorted :
    ∀ (l acc : List (KeyPair × Nat)),
      acc.Sorted (fun a b => b.2 ≤ a.2) →
      (l.foldl (fun a x => insertDesc x a) acc).Sorted (fun a b => b.2 ≤ a.2) := by
  intro l
  induction l with
  | nil => intro acc h; exact h
  | cons x rest ih =>
      intro acc h
      exact ih (insertDesc x acc) (insertDesc_sorted x acc h)

/-- The stable sort produces a descending-by-count list. -/
theorem sortDesc_sorted (l : List (KeyPair × Nat)) :
    (sortDesc l).Sorted (fun a b => b.2 ≤ a.2) :=
  foldl_insertDesc_sorted l [] (by simp)

/-- The selection loop only ever extends its accumulator by list elements. -/
theorem takeGroup_length_le (gs : Nat) :
    ∀ (l : List (KeyPair × Nat)) (acc out : List KeyPair),
      takeGroup gs l acc = some out → out.length ≤ acc.length + l.length := by
  intro l
  induction l with
  | nil =>
      intro acc out h
      simp [takeGroup] at h
      simp [← h]
  | cons e rest ih =>
      intro acc out h
      obtain ⟨p, c⟩ := e
      unfold takeGroup at h
      by_cases hlt : acc.length < gs
      · rw [if_pos hlt] at h
        by_cases hc : c ≤ gs
        · rw [if_pos hc] at h
          have := ih (acc ++ [p]) out h
          simp at this ⊢
          omega
        · rw [if_neg hc] at h
          exact absurd h (by simp)
      · rw [if_neg hlt] at h
        have : out = acc := by
          have h2 := h
          injection h2 with h3
          exact h3.symm
        simp [this]

/-- If the selection loop succeeds on a sorted frequency list from an empty
accumulator and the group size is positive, every count in the list is at
most the group size. -/
theorem takeGroup_counts_le (gs : Nat) (hgs : 1 ≤ gs)
    (l : List (KeyPair × Nat)) (out : List KeyPair)
    (hs : l.Sorted (fun a b => b.2 ≤ a.2))
    (h : takeGroup gs l [] = some out) :
    ∀ e ∈ l, e.2 ≤ gs := by
  cases l with
  | nil => intro e he; simp at he
  | cons f rest =>
      obtain ⟨p, c⟩ := f
      have hlt : ([] : List KeyPair).length < gs := by simpa using hgs
      unfold takeGroup at h
      rw [if_pos hlt] at h
      by_cases hc : c ≤ gs
      · intro e he
        rcases List.mem_cons.mp he with h1 | h1
        · rw [h1]; exact hc
        · rw [List.sorted_cons] at hs
          exact Nat.le_trans (hs.1 e h1) hc
      · rw [if_neg hc] at h
        exact absurd h (by simp)

end SnVerify.GroupKey

namespace SnVerify.GroupKey

/-- C10: there is an input whose matching-target responses repeat one pair
more often than `GROUP_SIZE` times and on which `merge` fails fatally at the
internal `assert!(count <= GROUP_SIZE)`; and whenever `merge` returns a
result (with a positive `GROUP_SIZE`), no pair occurs more than `GROUP_SIZE`
times across the self response and the peer responses. -/
theorem claim_c10_count_bound :
    (merge 1 ⟨0, [(1, 1)]⟩ [⟨0, [(1, 1)]⟩] = MergeResult.panicCountBound
      ∧ totalCount (1, 1) ⟨0, [(1, 1)]⟩ [⟨0, [(1, 1)]⟩] = 2)
    ∧ (∀ (gs : Nat) (s : GetGroupKeyResponse)
        (others : List GetGroupKeyResponse) (r : GetGroupKeyResponse),
        1 ≤ gs → merge gs s others = MergeResult.ok r →
        ∀ p : KeyPair, totalCount p s others ≤ gs) := by
  constructor
  · exact ⟨by decide, by decide⟩
  · intro gs s others r hgs hok p
    unfold merge at hok
    split at hok
    · exact absurd hok (by simp)
    · rename_i fc hco
      split at hok
      · exact absurd hok (by simp)
      · rename_i merged htg
        · have hl : lookupCount fc p = totalCount p s others := by
            have h1 := lookupCount_countOthers s.target_id p others
              (countKeys [] s.public_sign_keys) fc hco
            have h2 := lookupCount_countKeys p s.public_sign_keys []
            rw [h1, h2]
            simp [lookupCount, totalCount]
          rcases lookupCount_mem p fc with h0 | hmem
          · rw [← hl, h0]
            exact Nat.zero_le gs
          · have hmem2 : (p, lookupCount fc p) ∈ sortDesc fc :=
              (sortDesc_perm fc).symm.subset hmem
            have hle := takeGroup_counts_le gs hgs (sortDesc fc) merged
              (sortDesc_sorted fc) htg (p, lookupCount fc p) hmem2
            rw [← hl]
            exact hle

/-- C10 witness: the single response `{0, [(1,1)]}` with no peers merges
successfully at `GROUP_SIZE = 1`, so the bound applies: the pair `(1,1)`
occurs at most once. -/
theorem claim_c10_witness :
    totalCount (1, 1) ⟨0, [(1, 1)]⟩ [] ≤ 1 :=
  claim_c10_count_bound.2 1 ⟨0, [(1, 1)]⟩ [] ⟨0, [(1, 1)]⟩ (by decide)
    (by decide) (1, 1)

end SnVerify.GroupKey

namespace SnVerify.GroupKey

/-- Bumping a pair keeps the entry keys, adding `p` at the end when it is
new. -/
theorem bumpCount_fst (p : KeyPair) :
    ∀ (fc : List (KeyPair × Nat)),
      (bumpCount fc p).map Prod.fst =
        if p ∈ fc.map Prod.fst then fc.map Prod.fst
        else fc.map Prod.fst ++ [p] := by
  intro fc
  induction fc with
  | nil => simp [bumpCount]
  | cons e rest ih =>
      obtain ⟨q, c⟩ := e
      by_cases hqp : q = p
      · simp [bumpCount, hqp]
      · have hpq : ¬ p = q := fun h => hqp h.symm
        by_cases hmem : p ∈ rest.map Prod.fst
        · simp [bumpCount, hqp, hpq, hmem, ih]
        · simp [bumpCount, hqp, hpq, hmem, ih]

/-- Membership in the keys of a counted accumulator. -/
theorem countKeys_fst_mem (q : KeyPair) :
    ∀ (ks : List KeyPair) (fc : List (KeyPair × Nat)),
      q ∈ (countKeys fc ks).map Prod.fst ↔
        q ∈ fc.map Prod.fst ∨ q ∈ ks := by
  intro ks
  induction ks with
  | nil => intro fc; simp [countKeys]
  | cons k rest ih =>
      intro fc
      have hstep : countKeys fc (k :: rest) = countKeys (bumpCount fc k) rest := rfl
      rw [hstep, ih, bumpCount_fst]
      by_cases hmem : k ∈ fc.map Prod.fst
      · rw [if_pos hmem]
        constructor
        · rintro (h | h)
          · exact Or.inl h
          · exact Or.inr (List.mem_cons_of_mem k h)
        · rintro (h | h)
          · exact Or.inl h
          · rcases List.mem_cons.mp h with h1 | h1
            · exact Or.inl (h1 ▸ hmem)
            · exact Or.inr h1
      · rw [if_neg hmem]
        simp [or_assoc, List.mem_cons]

/-- Counting keys never duplicates an entry key. -/
theorem countKeys_fst_nodup :
    ∀ (ks : List KeyPair) (fc : List (KeyPair × Nat)),
      (fc.map Prod.fst).Nodup → ((countKeys fc ks).map Prod.fst).Nodup := by
  intro ks
  induction ks with
  | nil => intro fc h; exact h
  | cons k rest ih =>
      intro fc h
      have hstep : countKeys fc (k :: rest) = countKeys (bumpCount fc k) rest := rfl
      rw [hstep]
      apply ih
      rw [bumpCount_fst]
      by_cases hmem : k ∈ fc.map Prod.fst
      · rw [if_pos hmem]; exact h
      · rw [if_neg hmem]
        simpa [List.nodup_append, hmem] using h

/-- Membership in the keys of the accumulator after counting all peer
responses. -/
theorem countOthers_fst_mem (t : Nat) (q : KeyPair) :
    ∀ (others : List GetGroupKeyResponse) (fc fc2 : List (KeyPair × Nat)),
      countOthers t fc others = some fc2 →
      (q ∈ fc2.map Prod.fst ↔
        q ∈ fc.map Prod.fst ∨
          q ∈ (others.map (fun o => o.public_sign_keys)).flatten) := by
  intro others
  induction others with
  | nil =>
      intro fc fc2 h
      simp [countOthers] at h
      subst h
      simp
  | cons o rest ih =>
      intro fc fc2 h
      unfold countOthers at h
      by_cases ho : o.target_id ≠ t
      · rw [if_pos ho] at h
        exact absurd h (by simp)
      · rw [if_neg ho] at h
        rw [ih _ _ h, countKeys_fst_mem]
        simp [or_assoc]

/-- Counting all peer responses never duplicates an entry key. -/
theorem countOthers_fst_nodup (t : Nat) :
    ∀ (others : List GetGroupKeyResponse) (fc fc2 : List (KeyPair × Nat)),
      countOthers t fc others = some fc2 →
      (fc.map Prod.fst).Nodup → (fc2.map Prod.fst).Nodup := by
  intro others
  induction others with
  | nil =>
      intro fc fc2 h hn
      simp [countOthers] at h
      subst h
      exact hn
  | cons o rest ih =>
      intro fc fc2 h hn
      unfold countOthers at h
      by_cases ho : o.target_id ≠ t
      · rw [if_pos ho] at h
        exact absurd h (by simp)
      · rw [if_neg ho] at h
        exact ih _ _ h (countKeys_fst_nodup _ _ hn)

/-- When every peer response matches the target, the counting loop
succeeds. -/
theorem countOthers_matching_some (t : Nat) :
    ∀ (others : List GetGroupKeyResponse) (fc : List (KeyPair × Nat)),
      (∀ o ∈ others, o.target_id = t) →
      ∃ fc2, countOthers t fc others = some fc2 := by
  intro others
  induction others with
  | nil => intro fc _; exact ⟨fc, rfl⟩
  | cons o rest ih =>
      intro fc hmt
      have ho : ¬ o.target_id ≠ t := by
        simp [hmt o (List.mem_cons_self o rest)]
      obtain ⟨fc2, hfc2⟩ :=
        ih (countKeys fc o.public_sign_keys)
          (fun w hw => hmt w (List.mem_cons_of_mem o hw))
      refine ⟨fc2, ?_⟩
      unfold countOthers
      rw [if_neg ho]
      exact hfc2

end SnVerify.GroupKey

namespace SnVerify.GroupKey

/-- C4: whenever `merge` returns a result, its `public_sign_keys` has length
exactly `GROUP_SIZE` and its `target_id` is the self response's; and when
the matching-target responses carry fewer than `GROUP_SIZE` distinct pairs,
`merge` does not return a short result but fails fatally at one of its
assertions. -/
theorem claim_c4_merge_size_invariant (gs : Nat) (s : GetGroupKeyResponse)
    (others : List GetGroupKeyResponse) :
    (∀ r : GetGroupKeyResponse, merge gs s others = MergeResult.ok r →
        r.public_sign_keys.length = gs ∧ r.target_id = s.target_id)
    ∧ ((∀ o ∈ others, o.target_id = s.target_id) →
        distinctPairCount s others < gs →
        merge gs s others = MergeResult.panicCountBound ∨
          merge gs s others = MergeResult.panicGroupLen) := by
  constructor
  · intro r hok
    unfold merge at hok
    split at hok
    · exact absurd hok (by simp)
    · rename_i fc hco
      split at hok
      · exact absurd hok (by simp)
      · rename_i merged htg
        split at hok
        · rename_i hlen
          injection hok with h
          exact ⟨by rw [← h]; exact hlen, by rw [← h]⟩
        · exact absurd hok (by simp)
  · intro hmt hdc
    obtain ⟨fc, hco⟩ :=
      countOthers_matching_some s.target_id others
        (countKeys [] s.public_sign_keys) hmt
    have hnod : (fc.map Prod.fst).Nodup := by
      apply countOthers_fst_nodup s.target_id others _ fc hco
      apply countKeys_fst_nodup
      simp
    have hmem : ∀ q : KeyPair, q ∈ fc.map Prod.fst ↔ q ∈ allPairs s others := by
      intro q
      rw [countOthers_fst_mem s.target_id q others _ fc hco, countKeys_fst_mem]
      simp [allPairs]
    have hperm : (fc.map Prod.fst).Perm (allPairs s others).dedup := by
      rw [List.perm_ext_iff_of_nodup hnod (List.nodup_dedup _)]
      intro q
      rw [hmem q, List.mem_dedup]
    have hflen : fc.length < gs := by
      have h1 : fc.length = (allPairs s others).dedup.length := by
        have h2 := hperm.length_eq
        simpa using h2
      rw [h1]
      exact hdc
    cases htg : takeGroup gs (sortDesc fc) [] with
    | none =>
        left
        simp [merge, hco, htg]
    | some merged =>
        right
        have hm : merged.length ≤ fc.length := by
          have h3 := takeGroup_length_le gs (sortDesc fc) [] merged htg
          have hsl : (sortDesc fc).length = fc.length :=
            (sortDesc_perm fc).length_eq
          simpa [hsl] using h3
        have hne : ¬ merged.length = gs := by omega
        simp [merge, hco, htg, hne]

/-- C4 witness: with matching targets and only two distinct pairs at
`GROUP_SIZE = 3`, `merge` hits an assertion instead of returning a short
result; and the size facts hold for a successful merge. -/
theorem claim_c4_witness :
    (merge 3 ⟨0, [(1, 1), (2, 2)]⟩ [⟨0, [(1, 1), (2, 2)]⟩] =
        MergeResult.panicCountBound ∨
      merge 3 ⟨0, [(1, 1), (2, 2)]⟩ [⟨0, [(1, 1), (2, 2)]⟩] =
        MergeResult.panicGroupLen)
    ∧ ([(1, 101), (2, 102), (3, 103)] : List KeyPair).length = 3
    ∧ (0 : Nat) = 0 :=
  ⟨(claim_c4_merge_size_invariant 3 ⟨0, [(1, 1), (2, 2)]⟩
        [⟨0, [(1, 1), (2, 2)]⟩]).2 (by decide) (by decide),
    ((claim_c4_merge_size_invariant 3 ⟨0, [(1, 101), (2, 102), (3, 103)]⟩
          [⟨0, [(1, 101), (2, 102), (3, 103)]⟩,
            ⟨0, [(1, 101), (2, 102), (4, 104)]⟩]).1
        ⟨0, [(1, 101), (2, 102), (3, 103)]⟩ (by decide)).1,
    ((claim_c4_merge_size_invariant 3 ⟨0, [(1, 101), (2, 102), (3, 103)]⟩
          [⟨0, [(1, 101), (2, 102), (3, 103)]⟩,
            ⟨0, [(1, 101), (2, 102), (4, 104)]⟩]).1
        ⟨0, [(1, 101), (2, 102), (3, 103)]⟩ (by decide)).2⟩

end SnVerify.GroupKey

namespace SnVerify.GroupKey

/-- Bumping a pair that is not yet counted pushes it at the end with count
one. -/
theorem bumpCount_not_mem (p : KeyPair) :
    ∀ (fc : List (KeyPair × Nat)), p ∉ fc.map Prod.fst →
      bumpCount fc p = fc ++ [(p, 1)] := by
  intro fc
  induction fc with
  | nil => intro _; rfl
  | cons e rest ih =>
      intro h
      obtain ⟨q, c⟩ := e
      simp only [List.map_cons, List.mem_cons] at h
      push_neg at h
      have hqp : ¬ q = p := fun he => h.1 he.symm
      simp [bumpCount, hqp, ih h.2]

/-- Counting a duplicate-free list of pairs none of which is already counted
appends them all with count one, in order. -/
theorem countKeys_fresh :
    ∀ (ks : List KeyPair) (fc : List (KeyPair × Nat)), ks.Nodup →
      (∀ p ∈ ks, p ∉ fc.map Prod.fst) →
      countKeys fc ks = fc ++ ks.map (fun p => (p, 1)) := by
  intro ks
  induction ks with
  | nil => intro fc _ _; simp [countKeys]
  | cons k rest ih =>
      intro fc hnd hfr
      have hstep : countKeys fc (k :: rest) = countKeys (bumpCount fc k) rest := rfl
      rw [hstep, bumpCount_not_mem k fc (hfr k (List.mem_cons_self k rest))]
      rw [List.nodup_cons] at hnd
      have hfr2 : ∀ p ∈ rest, p ∉ (fc ++ [(k, 1)]).map Prod.fst := by
        intro p hp
        simp only [List.map_append, List.mem_append]
        push_neg
        refine ⟨hfr p (List.mem_cons_of_mem k hp), ?_⟩
        simp only [List.map_cons, List.map_nil, List.mem_singleton]
        exact fun he => hnd.1 (he ▸ hp)
      rw [ih (fc ++ [(k, 1)]) hnd.2 hfr2]
      simp

/-- Inserting below every element with the same count appends at the end. -/
theorem insertDesc_no_lt (x : KeyPair × Nat) :
    ∀ (acc : List (KeyPair × Nat)), (∀ y ∈ acc, ¬ y.2 < x.2) →
      insertDesc x acc = acc ++ [x] := by
  intro acc
  induction acc with
  | nil => intro _; rfl
  | cons y rest ih =>
      intro h
      simp [insertDesc, h y (List.mem_cons_self y rest),
        ih (fun z hz => h z (List.mem_cons_of_mem y hz))]

/-- Folding stable insertions of equal-count elements preserves the
order. -/
theorem foldl_insertDesc_const (c : Nat) :
    ∀ (l acc : List (KeyPair × Nat)), (∀ x ∈ l, x.2 = c) →
      (∀ y ∈ acc, y.2 = c) →
      l.foldl (fun a x => insertDesc x a) acc = acc ++ l := by
  intro l
  induction l with
  | nil => intro acc _ _; simp
  | cons x rest ih =>
      intro acc hl hacc
      have hx : x.2 = c := hl x (List.mem_cons_self x rest)
      have hins : insertDesc x acc = acc ++ [x] := by
        apply insertDesc_no_lt
        intro y hy
        rw [hacc y hy, hx]
        exact Nat.lt_irrefl c
      have hstep : (x :: rest).foldl (fun a x => insertDesc x a) acc =
          rest.foldl (fun a x => insertDesc x a) (insertDesc x acc) := rfl
      rw [hstep, hins,
        ih (acc ++ [x]) (fun z hz => hl z (List.mem_cons_of_mem x hz))
          (by
            intro y hy
            rcases List.mem_append.mp hy with h1 | h1
            · exact hacc y h1
            · rw [List.mem_singleton.mp h1]; exact hx)]
      simp

/-- A list of equal counts is already stably sorted. -/
theorem sortDesc_const (c : Nat) (l : List (KeyPair × Nat))
    (h : ∀ x ∈ l, x.2 = c) : sortDesc l = l := by
  simpa using foldl_insertDesc_const c l [] h (by simp)

/-- The selection loop on counts all equal to `c ≤ groupSize` takes the
leading pairs in order. -/
theorem takeGroup_const (gs c : Nat) (hc : c ≤ gs) :
    ∀ (l : List (KeyPair × Nat)) (acc : List KeyPair),
      (∀ x ∈ l, x.2 = c) → acc.length ≤ gs →
      takeGroup gs l acc =
        some (acc ++ (l.map Prod.fst).take (gs - acc.length)) := by
  intro l
  induction l with
  | nil => intro acc _ _; simp [takeGroup]
  | cons e rest ih =>
      intro acc hl hacc
      obtain ⟨p, cc⟩ := e
      have hcc : cc = c := hl (p, cc) (List.mem_cons_self _ rest)
      by_cases hlt : acc.length < gs
      · unfold takeGroup
        rw [if_pos hlt, if_pos (hcc ▸ hc)]
        rw [ih (acc ++ [p]) (fun z hz => hl z (List.mem_cons_of_mem _ hz))
          (by simp; omega)]
        have hsub : gs - acc.length = (gs - (acc ++ [p]).length) + 1 := by
          simp; omega
        rw [hsub]
        simp [List.take_succ_cons]
      · unfold takeGroup
        rw [if_neg hlt]
        have : gs - acc.length = 0 := by omega
        simp [this]

/-- With `groupSize = 0` the selection loop returns the empty group at
once. -/
theorem takeGroup_zero (l : List (KeyPair × Nat)) :
    takeGroup 0 l [] = some [] := by
  cases l with
  | nil => rfl
  | cons e rest =>
      obtain ⟨p, c⟩ := e
      unfold takeGroup
      rw [if_neg (by simp)]

/-- Bumping a pair that does not occur in the leading entries skips over
them. -/
theorem bumpCount_append_not_mem (p : KeyPair) :
    ∀ (pre l : List (KeyPair × Nat)), p ∉ pre.map Prod.fst →
      bumpCount (pre ++ l) p = pre ++ bumpCount l p := by
  intro pre
  induction pre with
  | nil => intro l _; simp
  | cons e rest ih =>
      intro l h
      obtain ⟨q, c⟩ := e
      simp only [List.map_cons, List.mem_cons] at h
      push_neg at h
      have hqp : ¬ q = p := fun he => h.1 he.symm
      simp [bumpCount, hqp, ih l h.2]

/-- Recounting a duplicate-free list already counted at `c` (after a prefix
that misses it) increments each of its counts to `c + 1`, in place. -/
theorem countKeys_incr (c : Nat) :
    ∀ (ks : List KeyPair) (pre : List (KeyPair × Nat)), ks.Nodup →
      (∀ p ∈ ks, p ∉ pre.map Prod.fst) →
      countKeys (pre ++ ks.map (fun p => (p, c))) ks =
        pre ++ ks.map (fun p => (p, c + 1)) := by
  intro ks
  induction ks with
  | nil => intro pre _ _; simp [countKeys]
  | cons k rest ih =>
      intro pre hnd hfr
      rw [List.nodup_cons] at hnd
      have hstep : countKeys (pre ++ (k :: rest).map (fun p => (p, c)))
          (k :: rest) =
          countKeys (bumpCount (pre ++ (k :: rest).map (fun p => (p, c))) k)
            rest := rfl
      rw [hstep,
        bumpCount_append_not_mem k pre _ (hfr k (List.mem_cons_self k rest))]
      have hbk : bumpCount ((k :: rest).map (fun p => (p, c))) k =
          (k, c + 1) :: rest.map (fun p => (p, c)) := by
        simp [bumpCount]
      rw [hbk]
      have hre : pre ++ (k, c + 1) :: rest.map (fun p => (p, c)) =
          (pre ++ [(k, c + 1)]) ++ rest.map (fun p => (p, c)) := by simp
      rw [hre,
        ih (pre ++ [(k, c + 1)]) hnd.2
          (by
            intro p hp
            simp only [List.map_append, List.mem_append]
            push_neg
            refine ⟨hfr p (List.mem_cons_of_mem k hp), ?_⟩
            simp only [List.map_cons, List.map_nil, List.mem_singleton]
            exact fun he => hnd.1 (he ▸ hp))]
      simp

end SnVerify.GroupKey

namespace SnVerify.GroupKey

/-- Pairs tagged with a constant count all carry that count. -/
theorem mem_map_pair_const_snd (c : Nat) (l : List KeyPair) :
    ∀ x ∈ l.map (fun p => (p, c)), x.2 = c := by
  intro x hx
  obtain ⟨p, _, h⟩ := List.mem_map.mp hx
  rw [← h]

/-- Projecting the pairs back out of a constant-count tagging is the
identity. -/
theorem map_pair_const_fst (c : Nat) (l : List KeyPair) :
    (l.map (fun p => (p, c))).map Prod.fst = l := by
  induction l with
  | nil => rfl
  | cons x rest ih => simp [ih]

/-- C3 counterexample: at `GROUP_SIZE = 2`, merging `{0, [(2,2),(1,1)]}`
with no peers succeeds and returns the pairs in their original order
`[(2,2),(1,1)]`, which is not ordered by the claimed tie-break (both counts
are 1 and `(1,1)` precedes `(2,2)` in the pair's natural order): the sort is
stable and does not break ties by the serialized-key order. -/
theorem claim_c3_counterexample :
    merge 2 ⟨0, [(2, 2), (1, 1)]⟩ [] = MergeResult.ok ⟨0, [(2, 2), (1, 1)]⟩
    ∧ specOrdered ⟨0, [(2, 2), (1, 1)]⟩ [] [(2, 2), (1, 1)] = false :=
  ⟨by decide, by decide⟩

/-- C3 (amended): the pairs are sorted descending by count with ties kept in
first-occurrence order (the sort is stable), and the first `GROUP_SIZE`
pairs become the result; in particular the fixture of the claim holds, and
a duplicate-free self response with no peers (all counts tied at 1) merges
to its leading `GROUP_SIZE` pairs in their original order. -/
theorem claim_c3_amended :
    (merge 3 ⟨0, [(1, 101), (2, 102), (3, 103)]⟩
        [⟨0, [(1, 101), (2, 102), (3, 103)]⟩,
          ⟨0, [(1, 101), (2, 102), (4, 104)]⟩]
      = MergeResult.ok ⟨0, [(1, 101), (2, 102), (3, 103)]⟩)
    ∧ (∀ (gs : Nat) (s : GetGroupKeyResponse),
        s.public_sign_keys.Nodup → gs ≤ s.public_sign_keys.length →
        merge gs s [] =
          MergeResult.ok ⟨s.target_id, s.public_sign_keys.take gs⟩) := by
  constructor
  · decide
  · intro gs s hnd hgs
    have hck : countKeys [] s.public_sign_keys =
        s.public_sign_keys.map (fun p => (p, 1)) := by
      simpa using countKeys_fresh s.public_sign_keys [] hnd (by simp)
    rcases Nat.eq_zero_or_pos gs with h0 | hpos
    · subst h0
      simp [merge, countOthers, hck, takeGroup_zero]
    · have hsort : sortDesc (s.public_sign_keys.map (fun p => (p, 1))) =
          s.public_sign_keys.map (fun p => (p, 1)) :=
        sortDesc_const 1 _ (mem_map_pair_const_snd 1 s.public_sign_keys)
      have htake := takeGroup_const gs 1 hpos
        (s.public_sign_keys.map (fun p => (p, 1))) []
        (mem_map_pair_const_snd 1 s.public_sign_keys) (by simp)
      have htake2 : takeGroup gs (s.public_sign_keys.map (fun p => (p, 1))) []
          = some (s.public_sign_keys.take gs) := by
        simpa [map_pair_const_fst 1 s.public_sign_keys] using htake
      have hlen : (s.public_sign_keys.take gs).length = gs := by
        simp [List.length_take]
        omega
      simp [merge, countOthers, hck, hsort, htake2, hlen, hgs]

/-- C3 witness: a duplicate-free response with two tied pairs in
anti-natural order merges, at `GROUP_SIZE = 2`, to those pairs in their
original order. -/
theorem claim_c3_witness :
    merge 2 ⟨5, [(9, 9), (4, 4)]⟩ [] =
      MergeResult.ok ⟨5, [(9, 9), (4, 4)]⟩ := by
  have h := claim_c3_amended.2 2 ⟨5, [(9, 9), (4, 4)]⟩ (by decide) (by decide)
  simpa using h

/-- C7 counterexample: at `GROUP_SIZE = 3`, the response `R` with four
distinct pairs satisfies `|R.public_sign_keys| ≥ GROUP_SIZE`, yet
`merge(R, [R])` returns the truncated group of three pairs, not `R`. -/
theorem claim_c7_counterexample :
    merge 3 ⟨0, [(1, 1), (2, 2), (3, 3), (4, 4)]⟩
        [⟨0, [(1, 1), (2, 2), (3, 3), (4, 4)]⟩]
      = MergeResult.ok ⟨0, [(1, 1), (2, 2), (3, 3)]⟩
    ∧ (⟨0, [(1, 1), (2, 2), (3, 3)]⟩ : GetGroupKeyResponse) ≠
        ⟨0, [(1, 1), (2, 2), (3, 3), (4, 4)]⟩
    ∧ 3 ≤ (⟨0, [(1, 1), (2, 2), (3, 3), (4, 4)]⟩ :
        GetGroupKeyResponse).public_sign_keys.length :=
  ⟨by decide, by decide, by decide⟩

/-- C7 (amended): `merge(R, [R]) = R` when `R`'s pairs are duplicate-free,
`|R.public_sign_keys|` equals `GROUP_SIZE` exactly, and `GROUP_SIZE ≥ 2`
(with `|R.public_sign_keys| > GROUP_SIZE` the result is truncated, and with
`GROUP_SIZE < 2` the doubled counts trip the count assertion). -/
theorem claim_c7_amended (gs : Nat) (r : GetGroupKeyResponse)
    (hnd : r.public_sign_keys.Nodup)
    (hlen : r.public_sign_keys.length = gs) (h2 : 2 ≤ gs) :
    merge gs r [r] = MergeResult.ok r := by
  obtain ⟨t, ks⟩ := r
  simp only at hnd hlen
  have hck : countKeys [] ks = ks.map (fun p => (p, 1)) := by
    simpa using countKeys_fresh ks [] hnd (by simp)
  have hck2 : countKeys (ks.map (fun p => (p, 1))) ks =
      ks.map (fun p => (p, 2)) := by
    simpa using countKeys_incr 1 ks [] hnd (by simp)
  have hsort : sortDesc (ks.map (fun p => (p, 2))) = ks.map (fun p => (p, 2)) :=
    sortDesc_const 2 _ (mem_map_pair_const_snd 2 ks)
  have htake := takeGroup_const gs 2 h2 (ks.map (fun p => (p, 2))) []
    (mem_map_pair_const_snd 2 ks) (by simp)
  have htake2 : takeGroup gs (ks.map (fun p => (p, 2))) [] =
      some (ks.take gs) := by
    simpa [map_pair_const_fst 2 ks] using htake
  have htk : ks.take gs = ks := by
    rw [← hlen]
    exact List.take_length ks
  simp [merge, countOthers, hck, hck2, hsort, htake2, htk, hlen]

/-- C7 witness: a duplicate-free response with exactly `GROUP_SIZE = 2`
pairs is a fixed point of merging with itself. -/
theorem claim_c7_witness :
    merge 2 ⟨3, [(5, 5), (6, 6)]⟩ [⟨3, [(5, 5), (6, 6)]⟩] =
      MergeResult.ok ⟨3, [(5, 5), (6, 6)]⟩ :=
  claim_c7_amended 2 ⟨3, [(5, 5), (6, 6)]⟩ (by decide) (by decide) (by decide)

end SnVerify.GroupKey
